import Mathlib

/-!
Shallow embedding of the interactive line editor from `src/main.rs`
(a small Rust command shell with history, recall and prefix completion).

Rust `String` values are modelled as `List Char`; `VecDeque<String>` as a
`List` whose head is the deque's front (the newest history entry);
fallible/optional results as `Option`; methods that mutate `&mut self`
become functions returning the updated state (paired with the returned
value where the Rust method returns one).
-/

/-- Rust `String` / `&str`, modelled as a list of characters. -/
abbrev RStr := List Char

/-- Rust `str::starts_with`: the pattern is a prefix of the string. -/
def rstrStartsWith (s pat : RStr) : Bool := pat.isPrefixOf s

/-- Rust `str::trim`: strip leading and trailing whitespace. -/
def rstrTrim (s : RStr) : RStr :=
  ((s.dropWhile Char.isWhitespace).reverse.dropWhile Char.isWhitespace).reverse

/-- The `CommandHistory` struct of `src/main.rs` (lines 14-23). -/
structure CommandHistory where
  commands : List RStr
  max_size : Nat
  current_index : Option Nat
  filtered_commands : List RStr
  original_input : RStr
  tab_index : Option Nat
deriving DecidableEq, Repr

namespace CommandHistory

/-- `CommandHistory::new` (lines 27-36). -/
def new (max_size : Nat) : CommandHistory :=
  { commands := []
    max_size := max_size
    current_index := none
    filtered_commands := []
    original_input := []
    tab_index := none }

/-- `CommandHistory::add` (lines 39-48): push the command to the front
unless it equals the current front; evict the back at capacity; reset
`current_index`. -/
def add (h : CommandHistory) (command : RStr) : CommandHistory :=
  let commands :=
    if h.commands.head?.all (fun last => last ≠ command) then
      let cs := if h.commands.length = h.max_size then h.commands.dropLast
                else h.commands
      command :: cs
    else h.commands
  { h with commands := commands, current_index := none }

/-- `CommandHistory::filter_commands` (lines 52-63): keep the commands
starting with `start`, reset the tab state, remember the input. -/
def filter_commands (h : CommandHistory) (start : RStr) : CommandHistory :=
  { h with
    filtered_commands := h.commands.filter (fun cmd => rstrStartsWith cmd start)
    tab_index := none
    original_input := start }

/-- `CommandHistory::get_next_suggestion` (lines 69-94): start cycling at
index 0, step forward while possible, and at the end reset the tab state
and hand back the original input. Returns the suggestion (if any) and the
updated state. -/
def get_next_suggestion (h : CommandHistory) : Option RStr × CommandHistory :=
  if h.filtered_commands.isEmpty then (none, h)
  else
    match h.tab_index with
    | none => (h.filtered_commands[0]?, { h with tab_index := some 0 })
    | some current_idx =>
      if current_idx + 1 < h.filtered_commands.length then
        (h.filtered_commands[current_idx + 1]?,
         { h with tab_index := some (current_idx + 1) })
      else
        (some h.original_input, { h with tab_index := none })

/-- `CommandHistory::reset_tab_completion` (lines 96-98). -/
def reset_tab_completion (h : CommandHistory) : CommandHistory :=
  { h with tab_index := none }

/-- `CommandHistory::previous` (lines 100-112): walk towards older
entries; at the oldest entry return `none` leaving the state unchanged. -/
def previous (h : CommandHistory) : Option RStr × CommandHistory :=
  if h.commands.isEmpty then (none, h)
  else
    match h.current_index with
    | none =>
      let h' := { h with current_index := some 0 }
      (h'.commands[0]?, h')
    | some idx =>
      if idx + 1 < h.commands.length then
        let h' := { h with current_index := some (idx + 1) }
        (h'.commands[idx + 1]?, h')
      else
        (none, h)

/-- `CommandHistory::next` (lines 114-126): walk towards newer entries;
from index 0 clear the cursor and return `none`; from `none` do nothing. -/
def next (h : CommandHistory) : Option RStr × CommandHistory :=
  match h.current_index with
  | none => (none, h)
  | some 0 => (none, { h with current_index := none })
  | some (idx + 1) => (h.commands[idx]?, { h with current_index := some idx })

end CommandHistory

/-- The key codes the inner event loop of `main` (lines 315-423)
distinguishes. `other` stands for every key code that falls into the
catch-all `_ => {}` arm; `up` and `down` are listed separately to record
that they too reach that arm. -/
inductive KeyCode where
  | enter
  | char (c : Char)
  | backspace
  | delete
  | left
  | right
  | homeKey
  | endKey
  | tab
  | up
  | down
  | other
deriving DecidableEq, Repr

/-- The editing state of one prompt cycle in `main`: the `input` string,
the `cursor_pos` into it, and the `CommandHistory`. -/
structure LoopState where
  input : RStr
  cursor_pos : Nat
  history : CommandHistory
deriving DecidableEq, Repr

/-- One step of the inner event loop of `main` on a key event
(lines 325-409), rendering elided. `Enter` only breaks the loop and
`Ctrl-C` exits the process, so both leave the editing state unchanged
here; submission is modelled separately by `submitLine`. -/
def stepKey (s : LoopState) (code : KeyCode) : LoopState :=
  match code with
  | .enter => s
  | .char c =>
    let input := s.input.insertIdx s.cursor_pos c
    let cursor_pos := s.cursor_pos + 1
    { input := input, cursor_pos := cursor_pos
      history := s.history.filter_commands input }
  | .backspace =>
    if s.cursor_pos > 0 then
      let cursor_pos := s.cursor_pos - 1
      let input := s.input.eraseIdx cursor_pos
      { input := input, cursor_pos := cursor_pos
        history := s.history.filter_commands input }
    else s
  | .delete =>
    if s.cursor_pos < s.input.length then
      let input := s.input.eraseIdx s.cursor_pos
      { s with input := input
               history := s.history.filter_commands input }
    else s
  | .left =>
    if s.cursor_pos > 0 then { s with cursor_pos := s.cursor_pos - 1 } else s
  | .right =>
    if s.cursor_pos < s.input.length then
      { s with cursor_pos := s.cursor_pos + 1 }
    else s
  | .homeKey => { s with cursor_pos := 0 }
  | .endKey => { s with cursor_pos := s.input.length }
  | .tab =>
    match s.history.get_next_suggestion with
    | (some suggestion, h') =>
      { input := suggestion, cursor_pos := suggestion.length, history := h' }
    | (none, h') => { s with history := h' }
  | .up => s
  | .down => s
  | .other => s

/-- Run the inner event loop over a list of key events. -/
def runKeys (s : LoopState) (keys : List KeyCode) : LoopState :=
  keys.foldl stepKey s

/-- The editing state at the start of a prompt cycle (`main`,
lines 312-313): empty input, cursor at 0. -/
def initState (h : CommandHistory) : LoopState :=
  { input := [], cursor_pos := 0, history := h }

/-- The submission step of `main` (lines 425-430): trim the input, add it
to the history when non-empty, then add it once more unconditionally. -/
def submitLine (h : CommandHistory) (input : RStr) : CommandHistory :=
  let t := rstrTrim input
  let h1 := if t.isEmpty = false then h.add t else h
  h1.add t

/-- Chain `add` over a list of lines (newest last). -/
def addAll (h : CommandHistory) (lines : List RStr) : CommandHistory :=
  lines.foldl CommandHistory.add h

/-- The per-candidate tab-selection well-formedness of a `CommandHistory`:
`tab_index`, when present, indexes into `filtered_commands`. -/
def tabSelWF (h : CommandHistory) : Prop :=
  match h.tab_index with
  | none => True
  | some i => i < h.filtered_commands.length

instance (h : CommandHistory) : Decidable (tabSelWF h) := by
  unfold tabSelWF
  cases h.tab_index <;> infer_instance

/-- The history-store invariant: entry count bounded by capacity, and no
two adjacent entries equal. -/
def histInv (h : CommandHistory) : Prop :=
  h.commands.length ≤ h.max_size ∧
  List.Chain' (fun a b => a ≠ b) h.commands

/- ### Helper lemmas -/

theorem chain'_dropLast {α : Type} {R : α → α → Prop} :
    ∀ l : List α, List.Chain' R l → List.Chain' R l.dropLast
  | [] => fun _ => List.chain'_nil
  | [_] => fun _ => List.chain'_nil
  | a :: b :: t => fun h => by
    obtain ⟨hhead, htail⟩ := List.chain'_cons'.mp h
    rw [show (a :: b :: t).dropLast = a :: (b :: t).dropLast from rfl]
    refine List.chain'_cons'.mpr ⟨?_, chain'_dropLast (b :: t) htail⟩
    intro y hy
    cases t with
    | nil => simp [List.dropLast] at hy
    | cons c t' =>
      rw [show (b :: c :: t').dropLast = b :: (c :: t').dropLast from rfl] at hy
      simp only [List.head?_cons, Option.mem_def, Option.some.injEq] at hy
      subst hy
      exact hhead b (by simp)

theorem add_commands_head (h : CommandHistory) (c : RStr) :
    ((h.add c).commands).head? = some c := by
  unfold CommandHistory.add
  cases hc : h.commands with
  | nil => simp
  | cons a t =>
    by_cases hac : a = c
    · simp [hc, hac]
    · simp [hc, hac]

theorem add_preserves_histInv (h : CommandHistory) (c : RStr)
    (hm : 1 ≤ h.max_size) (hi : histInv h) : histInv (h.add c) := by
  obtain ⟨hlen, hchain⟩ := hi
  unfold CommandHistory.add histInv
  by_cases hg : h.commands.head?.all (fun last => last ≠ c)
  · simp only [hg, if_true]
    by_cases heq : h.commands.length = h.max_size
    · simp only [heq, if_true]
      constructor
      · have : h.commands.dropLast.length = h.commands.length - 1 :=
          List.length_dropLast h.commands
        simp only [List.length_cons, this]
        omega
      · refine List.chain'_cons'.mpr ⟨?_, chain'_dropLast _ hchain⟩
        intro y hy
        have hy' : h.commands.head? = some y := by
          cases hc : h.commands with
          | nil => simp [hc] at hy
          | cons a t =>
            cases t with
            | nil => simp [hc, List.dropLast] at hy
            | cons b t' =>
              rw [hc, show (a :: b :: t').dropLast = a :: (b :: t').dropLast
                    from rfl] at hy
              simp only [List.head?_cons, Option.mem_def,
                Option.some.injEq] at hy
              simp [hc, hy]
        have hyc : y ≠ c := by
          have := hg
          rw [hy'] at this
          simpa using this
        exact fun hcy => hyc hcy.symm
    · simp only [heq, if_false]
      constructor
      · simp only [List.length_cons]
        omega
      · refine List.chain'_cons'.mpr ⟨?_, hchain⟩
        intro y hy
        have hy' : h.commands.head? = some y := hy
        have hyc : y ≠ c := by
          have := hg
          rw [hy'] at this
          simpa using this
        exact fun hcy => hyc hcy.symm
  · simp only [hg, if_false]
    exact ⟨hlen, hchain⟩

theorem add_max_size (h : CommandHistory) (c : RStr) :
    (h.add c).max_size = h.max_size := rfl

theorem addAll_histInv (lines : List RStr) (h : CommandHistory)
    (hm : 1 ≤ h.max_size) (hi : histInv h) : histInv (addAll h lines) := by
  induction lines generalizing h with
  | nil => exact hi
  | cons l ls ih =>
    exact ih (h.add l) (by rw [add_max_size]; exact hm)
      (add_preserves_histInv h l hm hi)

theorem stepKey_cursor_le (s : LoopState) (k : KeyCode)
    (hs : s.cursor_pos ≤ s.input.length) :
    (stepKey s k).cursor_pos ≤ (stepKey s k).input.length := by
  cases k with
  | enter => exact hs
  | char c =>
    simp only [stepKey]
    rw [List.length_insertIdx _ _ hs]
    omega
  | backspace =>
    simp only [stepKey]
    split
    · next hpos =>
      simp only []
      have hlt : s.cursor_pos - 1 < s.input.length := by omega
      have := List.length_eraseIdx_add_one hlt
      omega
    · exact hs
  | delete =>
    simp only [stepKey]
    split
    · next hpos =>
      dsimp only
      have := List.length_eraseIdx_add_one hpos
      omega
    · exact hs
  | left =>
    simp only [stepKey]
    split
    · dsimp only
      omega
    · exact hs
  | right =>
    simp only [stepKey]
    split
    · next hpos =>
      dsimp only
      omega
    · exact hs
  | homeKey => simp [stepKey]
  | endKey => simp [stepKey]
  | tab =>
    simp only [stepKey]
    cases hres : s.history.get_next_suggestion with
    | mk fst snd =>
      cases fst with
      | none => exact hs
      | some suggestion => simp
  | up => exact hs
  | down => exact hs
  | other => exact hs

theorem runKeys_cursor_le (keys : List KeyCode) (s : LoopState)
    (hs : s.cursor_pos ≤ s.input.length) :
    (runKeys s keys).cursor_pos ≤ (runKeys s keys).input.length := by
  induction keys generalizing s with
  | nil => exact hs
  | cons k ks ih => exact ih (stepKey s k) (stepKey_cursor_le s k hs)

/- ### Claim theorems -/

/-- C1 counterexample: with candidates `["git status", "git commit"]`
filtered from the prefix `"gi"`, the third `get_next_suggestion` call does
not wrap to `candidates[0] = "git status"`: it returns the original
unfiltered input `"gi"` and clears the selection. -/
theorem C1_advance_counterexample :
    (let h0 := (((CommandHistory.new 64).add "git commit".data).add
      "git status".data).filter_commands "gi".data
     let r1 := h0.get_next_suggestion
     let r2 := r1.2.get_next_suggestion
     let r3 := r2.2.get_next_suggestion
     r1.1 = some "git status".data ∧ r2.1 = some "git commit".data ∧
     r3.1 = some "gi".data ∧ r3.1 ≠ some "git status".data ∧
     r3.2.tab_index = none) := by decide

/-- C1 amended: when `selected = some i` on non-empty candidates, advance
moves to `i + 1` and returns the candidate there while `i + 1 < len`;
once `i` is the last index it does not wrap modulo the length, but clears
the selection and returns the original unfiltered input. -/
theorem C1_advance_amended (h : CommandHistory) (i : Nat)
    (hne : h.filtered_commands.isEmpty = false)
    (hi : h.tab_index = some i) :
    h.get_next_suggestion =
      if i + 1 < h.filtered_commands.length then
        (h.filtered_commands[i + 1]?, { h with tab_index := some (i + 1) })
      else
        (some h.original_input, { h with tab_index := none }) := by
  unfold CommandHistory.get_next_suggestion
  rw [hne, hi]
  simp

/-- Witness for `C1_advance_amended` at a concrete mid-cycle state. -/
theorem C1_advance_amended_witness :
    (let h : CommandHistory :=
      { commands := ["git status".data, "git commit".data]
        max_size := 64
        current_index := none
        filtered_commands := ["git status".data, "git commit".data]
        original_input := "gi".data
        tab_index := some 1 }
     h.get_next_suggestion = (some "gi".data, { h with tab_index := none })) := by
  have h1 := C1_advance_amended
    { commands := ["git status".data, "git commit".data]
      max_size := 64
      current_index := none
      filtered_commands := ["git status".data, "git commit".data]
      original_input := "gi".data
      tab_index := some 1 } 1 (by decide) (by decide)
  simpa using h1

/-- C2: evaluation at the failing input. Submitting a buffer that trims to
the empty string does change the History Store: the unconditional second
`history.add` in `main` records an empty entry (`commands` goes from `[]`
to `[""]`, and from `["ls"]` to `["", "ls"]`). -/
theorem C2_empty_submit_recorded :
    (submitLine (CommandHistory.new 64) "".data).commands = ["".data] ∧
    (submitLine ((CommandHistory.new 64).add "ls".data) "  ".data).commands
      = ["".data, "ls".data] ∧
    (CommandHistory.new 64).commands = [] := by decide

/-- C3 counterexample: at a state with history `["ls"]` and buffer `"x"`,
`recall_previous` would return the entry `"ls"`, yet the dispatcher step
on an Up key event leaves the whole state unchanged — the buffer is not
replaced with the recalled entry, because the event loop has no Up/Down
arms at all. -/
theorem C3_up_down_counterexample :
    (let s : LoopState :=
      { input := "x".data, cursor_pos := 1,
        history := (CommandHistory.new 64).add "ls".data }
     (s.history.previous).1 = some "ls".data ∧
     stepKey s .up = s ∧ (stepKey s .up).input ≠ "ls".data) := by decide

/-- C3 amended: Up and Down key events fall into the dispatcher's
catch-all arm and are ignored — no recall operation is invoked and the
editing state is left exactly unchanged. -/
theorem C3_up_down_amended (s : LoopState) :
    stepKey s .up = s ∧ stepKey s .down = s :=
  ⟨rfl, rfl⟩

/-- C5: on a history holding exactly `[c3, c2, c1]` newest-first with
recall cursor `none`, repeated `previous` calls return `c3, c2, c1`, then
nothing on a fourth call; from there repeated `next` calls return
`c2, c3`, then nothing while clearing the recall cursor; and `previous`
returns nothing on an empty history. -/
theorem C5_recall_trace (c1 c2 c3 : RStr) :
    (let h0 : CommandHistory := { CommandHistory.new 64 with commands := [c3, c2, c1] }
     let r1 := h0.previous
     let r2 := r1.2.previous
     let r3 := r2.2.previous
     let r4 := r3.2.previous
     let n1 := r4.2.next
     let n2 := n1.2.next
     let n3 := n2.2.next
     r1.1 = some c3 ∧ r2.1 = some c2 ∧ r3.1 = some c1 ∧ r4.1 = none ∧
     n1.1 = some c2 ∧ n2.1 = some c3 ∧ n3.1 = none ∧
     n3.2.current_index = none) ∧
    (CommandHistory.new 64).previous = (none, CommandHistory.new 64) := by
  constructor
  · simp [CommandHistory.previous, CommandHistory.next, CommandHistory.new]
  · decide

theorem addAll_max_size (lines : List RStr) (h : CommandHistory) :
    (addAll h lines).max_size = h.max_size := by
  induction lines generalizing h with
  | nil => rfl
  | cons l ls ih => exact ih (h.add l)

theorem add_head_eq_commands (h : CommandHistory) (c : RStr)
    (hh : h.commands.head? = some c) : (h.add c).commands = h.commands := by
  unfold CommandHistory.add
  rw [hh]
  simp

theorem get_next_suggestion_filtered (h : CommandHistory) :
    (h.get_next_suggestion).2.filtered_commands = h.filtered_commands := by
  unfold CommandHistory.get_next_suggestion
  split
  · rfl
  · cases htab : h.tab_index with
    | none => rfl
    | some i =>
      by_cases hc : i + 1 < h.filtered_commands.length
      · simp [hc]
      · simp [hc]

/-- C4: starting from the empty history of capacity 64, any sequence of
`add` calls keeps the entry count at most 64, keeps all adjacent entries
distinct, and adding the same text twice in a row leaves the entries of
the second call identical to those after the first (one entry, not
two). -/
theorem C4_add_invariants (lines : List RStr) :
    (addAll (CommandHistory.new 64) lines).commands.length ≤ 64 ∧
    List.Chain' (fun a b => a ≠ b)
      (addAll (CommandHistory.new 64) lines).commands ∧
    ∀ c : RStr,
      (((addAll (CommandHistory.new 64) lines).add c).add c).commands
        = ((addAll (CommandHistory.new 64) lines).add c).commands := by
  have hinv : histInv (addAll (CommandHistory.new 64) lines) :=
    addAll_histInv lines (CommandHistory.new 64) (by decide)
      ⟨Nat.zero_le _, List.chain'_nil⟩
  have hmax := addAll_max_size lines (CommandHistory.new 64)
  refine ⟨?_, hinv.2, ?_⟩
  · have := hinv.1
    rw [hmax] at this
    exact this
  · intro c
    exact add_head_eq_commands _ c
      (add_commands_head (addAll (CommandHistory.new 64) lines) c)

/-- C6: `filter_commands` returns exactly the history entries whose text
starts with the given string, in the store's recency order (the result is
a sublist of `commands`, membership is exactly the starts-with condition,
and the `"gi"` example from the spec holds). -/
theorem C6_filter_exact (h : CommandHistory) (start : RStr) :
    ((h.filter_commands start).filtered_commands).Sublist h.commands ∧
    (∀ c, c ∈ (h.filter_commands start).filtered_commands ↔
      c ∈ h.commands ∧ rstrStartsWith c start = true) ∧
    ((addAll (CommandHistory.new 64)
        ["ls".data, "git commit".data, "git status".data]).filter_commands
        "gi".data).filtered_commands
      = ["git status".data, "git commit".data] := by
  refine ⟨?_, ?_, by decide⟩
  · show (h.commands.filter (fun cmd => rstrStartsWith cmd start)).Sublist
      h.commands
    exact List.filter_sublist (l := h.commands)
  · intro c
    simp [CommandHistory.filter_commands, List.mem_filter]

/-- C7 counterexample: with history `["git status", "git commit"]` and
buffer `"g"`, the completion key replaces the buffer with `"git status"`
but the candidates are not recomputed from the new text: they stay
`["git status", "git commit"]`, which differs from the prefix filter of
the new buffer text. -/
theorem C7_stale_after_tab_counterexample :
    (let h := ((CommandHistory.new 64).add "git commit".data).add
      "git status".data
     let s : LoopState := { input := "g".data, cursor_pos := 1,
                            history := h.filter_commands "g".data }
     let s' := stepKey s .tab
     s'.input = "git status".data ∧ s'.input ≠ s.input ∧
     s'.history.filtered_commands = ["git status".data, "git commit".data] ∧
     s'.history.filtered_commands ≠
       s'.history.commands.filter
         (fun cmd => rstrStartsWith cmd s'.input)) := by decide

/-- C7 amended: the candidates are recomputed from scratch as the prefix
filter of the new buffer text after every printable character, Backspace
and Delete that changes the text; the completion key's buffer replacement
deliberately leaves them unchanged (still computed from the
pre-completion prefix), so they need not match the new text. -/
theorem C7_refresh_amended (s : LoopState) :
    (∀ c : Char,
      (stepKey s (.char c)).history.filtered_commands =
        (stepKey s (.char c)).history.commands.filter
          (fun cmd => rstrStartsWith cmd (stepKey s (.char c)).input)) ∧
    (0 < s.cursor_pos →
      (stepKey s .backspace).history.filtered_commands =
        (stepKey s .backspace).history.commands.filter
          (fun cmd => rstrStartsWith cmd (stepKey s .backspace).input)) ∧
    (s.cursor_pos < s.input.length →
      (stepKey s .delete).history.filtered_commands =
        (stepKey s .delete).history.commands.filter
          (fun cmd => rstrStartsWith cmd (stepKey s .delete).input)) ∧
    (stepKey s .tab).history.filtered_commands
      = s.history.filtered_commands := by
  refine ⟨?_, ?_, ?_, ?_⟩
  · intro c
    simp [stepKey, CommandHistory.filter_commands]
  · intro hpos
    simp [stepKey, hpos, CommandHistory.filter_commands]
  · intro hpos
    simp [stepKey, hpos, CommandHistory.filter_commands]
  · simp only [stepKey]
    have hsnd := get_next_suggestion_filtered s.history
    cases hres : s.history.get_next_suggestion with
    | mk fst snd =>
      rw [hres] at hsnd
      cases fst <;> simpa using hsnd

/-- Witness for `C7_refresh_amended`: the Backspace and Delete clauses at
a concrete state with the cursor strictly inside the buffer. -/
theorem C7_refresh_amended_witness :
    (stepKey { input := "ab".data, cursor_pos := 1,
               history := CommandHistory.new 64 } .backspace).history.filtered_commands =
      (stepKey { input := "ab".data, cursor_pos := 1,
                 history := CommandHistory.new 64 } .backspace).history.commands.filter
        (fun cmd => rstrStartsWith cmd
          (stepKey { input := "ab".data, cursor_pos := 1,
                     history := CommandHistory.new 64 } .backspace).input) ∧
    (stepKey { input := "ab".data, cursor_pos := 1,
               history := CommandHistory.new 64 } .delete).history.filtered_commands =
      (stepKey { input := "ab".data, cursor_pos := 1,
                 history := CommandHistory.new 64 } .delete).history.commands.filter
        (fun cmd => rstrStartsWith cmd
          (stepKey { input := "ab".data, cursor_pos := 1,
                     history := CommandHistory.new 64 } .delete).input) :=
  ⟨(C7_refresh_amended
      { input := "ab".data, cursor_pos := 1,
        history := CommandHistory.new 64 }).2.1 (by decide),
   (C7_refresh_amended
      { input := "ab".data, cursor_pos := 1,
        history := CommandHistory.new 64 }).2.2.1 (by decide)⟩

/-- C8: over any sequence of key events in a prompt cycle (starting from
the empty buffer with cursor 0), the cursor offset always satisfies
`cursor_pos ≤ length input` (and trivially `0 ≤ cursor_pos`); moreover
the boundary operations are no-ops: Backspace and Left at cursor 0, and
Delete and Right at the end of the buffer, leave the state unchanged. -/
theorem C8_cursor_always_valid (h : CommandHistory) (keys : List KeyCode) :
    (runKeys (initState h) keys).cursor_pos
      ≤ (runKeys (initState h) keys).input.length ∧
    (∀ s : LoopState, s.cursor_pos = 0 →
      stepKey s .backspace = s ∧ stepKey s .left = s) ∧
    (∀ s : LoopState, s.cursor_pos = s.input.length →
      stepKey s .delete = s ∧ stepKey s .right = s) := by
  refine ⟨runKeys_cursor_le keys (initState h) (by simp [initState]), ?_, ?_⟩
  · intro s hs
    constructor <;> simp [stepKey, hs]
  · intro s hs
    constructor <;> simp [stepKey, hs]

/-- Witness for `C8_cursor_always_valid`: the boundary no-ops at concrete
states (cursor 0 on `"a"`, and cursor at the end of `"a"`). -/
theorem C8_cursor_always_valid_witness :
    (stepKey { input := "a".data, cursor_pos := 0,
               history := CommandHistory.new 64 } .backspace
      = { input := "a".data, cursor_pos := 0,
          history := CommandHistory.new 64 }) ∧
    (stepKey { input := "a".data, cursor_pos := 1,
               history := CommandHistory.new 64 } .delete
      = { input := "a".data, cursor_pos := 1,
          history := CommandHistory.new 64 }) :=
  ⟨((C8_cursor_always_valid (CommandHistory.new 64) []).2.1
      { input := "a".data, cursor_pos := 0,
        history := CommandHistory.new 64 } rfl).1,
   ((C8_cursor_always_valid (CommandHistory.new 64) []).2.2
      { input := "a".data, cursor_pos := 1,
        history := CommandHistory.new 64 } (by decide)).1⟩

/-- C9: every Suggestion Engine operation keeps the selected index (when
present) inside the candidate list: `filter_commands` and
`reset_tab_completion` clear it, and `get_next_suggestion` preserves the
well-formedness; `filter_commands` always resets the selection to
`none`. -/
theorem C9_selected_wf (h : CommandHistory) (start : RStr)
    (hwf : tabSelWF h) :
    tabSelWF (h.filter_commands start) ∧
    (h.filter_commands start).tab_index = none ∧
    tabSelWF (h.get_next_suggestion).2 ∧
    tabSelWF h.reset_tab_completion := by
  refine ⟨?_, rfl, ?_, ?_⟩
  · simp [tabSelWF, CommandHistory.filter_commands]
  · unfold CommandHistory.get_next_suggestion
    split
    · exact hwf
    · next hne =>
      cases htab : h.tab_index with
      | none =>
        simp only [tabSelWF]
        have hnil : h.filtered_commands ≠ [] := by
          simpa using hne
        exact List.length_pos.mpr hnil
      | some i =>
        by_cases hc : i + 1 < h.filtered_commands.length
        · simp [hc, tabSelWF]
        · simp [hc, tabSelWF]
  · simp [tabSelWF, CommandHistory.reset_tab_completion]

/-- Witness for `C9_selected_wf` at the empty history (whose tab state is
trivially well-formed). -/
theorem C9_selected_wf_witness :
    tabSelWF ((CommandHistory.new 64).filter_commands "g".data) ∧
    ((CommandHistory.new 64).filter_commands "g".data).tab_index = none ∧
    tabSelWF ((CommandHistory.new 64).get_next_suggestion).2 ∧
    tabSelWF (CommandHistory.new 64).reset_tab_completion :=
  C9_selected_wf (CommandHistory.new 64) "g".data trivial

/-- C10: `previous` called with the recall cursor already at the oldest
entry returns nothing and leaves the state (entries and cursor) exactly
unchanged — the cursor is not cleared; and `next` called with the recall
cursor `none` returns nothing and leaves the state exactly unchanged. -/
theorem C10_recall_boundary_noop (h : CommandHistory) (idx : Nat)
    (hidx : h.current_index = some idx)
    (hlast : ¬ idx + 1 < h.commands.length) :
    h.previous = (none, h) ∧
    ∀ h' : CommandHistory, h'.current_index = none →
      h'.next = (none, h') := by
  constructor
  · unfold CommandHistory.previous
    split
    · rfl
    · rw [hidx]
      simp [hlast]
  · intro h' hn
    unfold CommandHistory.next
    rw [hn]

/-- Witness for `C10_recall_boundary_noop`: a one-entry history with the
recall cursor on its only (hence oldest) entry, and the fresh history for
the `next` clause. -/
theorem C10_recall_boundary_noop_witness :
    ({ commands := ["ls".data], max_size := 64, current_index := some 0,
       filtered_commands := [], original_input := [],
       tab_index := none } : CommandHistory).previous
      = (none,
         { commands := ["ls".data], max_size := 64, current_index := some 0,
           filtered_commands := [], original_input := [],
           tab_index := none }) ∧
    (CommandHistory.new 64).next = (none, CommandHistory.new 64) := by
  have hth := C10_recall_boundary_noop
    { commands := ["ls".data], max_size := 64, current_index := some 0,
      filtered_commands := [], original_input := [], tab_index := none }
    0 rfl (by decide)
  exact ⟨hth.1, hth.2 (CommandHistory.new 64) rfl⟩
